import Mathlib

/-!
Verification of the HelpBox toolbox core (src/tools/toolbox.py).

Python strings are modeled as `List Char` (`Str`); Python dictionaries as
insertion-ordered association lists; the host environment (PATH resolution,
directory existence, tilde/variable expansion, process spawning) as oracle
functions passed in as parameters.  Filesystem mutation performed by
`setup_shell` is modeled as a list of effects interpreted against a file-system
state, so that ordering of backup and write, and abort-on-backup-failure, are
observable.
-/

set_option maxRecDepth 4096

namespace HelpBox

/-- Python `str`, modeled as a list of characters. -/
abbrev Str := List Char

/-- `isPrefOf n h` is true iff `n` is a prefix of `h` (helper for Python `in`). -/
def isPrefOf : Str → Str → Bool
  | [], _ => true
  | _ :: _, [] => false
  | a :: as, b :: bs => a == b && isPrefOf as bs

/-- Python substring test `needle in haystack`. -/
def containsSub (needle : Str) : Str → Bool
  | [] => needle == []
  | b :: bs => isPrefOf needle (b :: bs) || containsSub needle bs

/-- The line-boundary characters recognized by Python `str.splitlines`. -/
def isLineBreak (c : Char) : Bool :=
  c == '\n' || c == '\r' || c == '\x0b' || c == '\x0c' ||
  c == '\x1c' || c == '\x1d' || c == '\x1e' || c == '\x85' ||
  c == '\u2028' || c == '\u2029'

/-- Python `str.splitlines`: split at line boundaries (with `\r\n` counting as
one boundary), no trailing empty line for a trailing boundary. -/
def splitlines : Str → List Str
  | [] => []
  | '\r' :: '\n' :: rest => [] :: splitlines rest
  | c :: rest =>
    if isLineBreak c then [] :: splitlines rest
    else
      match splitlines rest with
      | [] => [[c]]
      | l :: ls => (c :: l) :: ls

/-- Python `"\n".join(lines)`. -/
def joinLines : List Str → Str
  | [] => []
  | [l] => l
  | l :: ls => l ++ '\n' :: joinLines ls

/-- Python `s.endswith("\n")`. -/
def endsWithNl : Str → Bool
  | [] => false
  | [c] => c == '\n'
  | _ :: rest => endsWithNl rest

/-- Python `s.split(sep)` for a one-character separator (empty pieces kept). -/
def splitSep (sep : Char) : Str → List Str
  | [] => [[]]
  | c :: rest =>
    if c = sep then [] :: splitSep sep rest
    else
      match splitSep sep rest with
      | [] => [[c]]
      | l :: ls => (c :: l) :: ls

/-- The characters Python's argument-less `str.split()` treats as whitespace
(`Py_UNICODE_ISSPACE`): the ASCII whitespace `\t \n \v \f \r`, space, the
separators `\x1c`-`\x1f`, and the Unicode spaces `\x85`, `\xa0`, `\u1680`,
`\u2000`-`\u200a`, `\u2028`, `\u2029`, `\u202f`, `\u205f`, `\u3000`. -/
def isPySpace (c : Char) : Bool :=
  c == ' ' || c == '\t' || c == '\n' || c == '\r' || c == '\x0b' || c == '\x0c' ||
  c == '\x1c' || c == '\x1d' || c == '\x1e' || c == '\x1f' ||
  c == '\x85' || c == '\xa0' || c == '\u1680' ||
  c == '\u2000' || c == '\u2001' || c == '\u2002' || c == '\u2003' ||
  c == '\u2004' || c == '\u2005' || c == '\u2006' || c == '\u2007' ||
  c == '\u2008' || c == '\u2009' || c == '\u200a' ||
  c == '\u2028' || c == '\u2029' || c == '\u202f' || c == '\u205f' || c == '\u3000'

/-- Leading token of `candidate.split()[0]`: drop leading whitespace, take up to
the next whitespace; `none` when the string holds no non-whitespace character
(in which case the Python indexing `[0]` raises `IndexError`). -/
def firstToken (s : Str) : Option Str :=
  let t := (s.dropWhile isPySpace).takeWhile (fun c => !isPySpace c)
  if t == [] then none else some t

/-- The `Context` dataclass of toolbox.py.  The source calls the last field
`prefix`; that word is a Lean keyword, so the field is named `pfx` here. -/
structure Ctx where
  verbose : Bool
  dry_run : Bool
  explain : Bool
  colour : Bool
  pfx : Str
deriving DecidableEq

/-- Failures of Python `str.format`: `valueError` for malformed brace syntax,
`keyError name` for a replacement field whose name is not among the keyword
arguments. -/
inductive FmtErr where
  | valueError
  | keyError (name : Str)
deriving DecidableEq

/-- Read a replacement-field name up to the closing `}` (failing at end of
string or at a nested `{`, as CPython's field parser does). -/
def splitField (s : Str) : Option (Str × Str) :=
  let name := s.takeWhile fun c => !(c == '}') && !(c == '{')
  match s.dropWhile fun c => !(c == '}') && !(c == '{') with
  | '}' :: after => some (name, after)
  | _ => none

theorem splitField_length {s name rest : Str} (h : splitField s = some (name, rest)) :
    rest.length < s.length := by
  unfold splitField at h
  have hd : ∀ t : Str, (t.dropWhile fun c => !(c == '}') && !(c == '{')).length ≤ t.length := by
    intro t
    induction t with
    | nil => simp
    | cons c cs ih =>
      rw [List.dropWhile_cons]
      by_cases hc : (!(c == '}') && !(c == '{')) = true
      · rw [if_pos hc]
        exact le_trans ih (Nat.le_succ _)
      · rw [if_neg hc]
  split at h
  next after heq =>
    simp only [Option.some.injEq, Prod.mk.injEq] at h
    obtain ⟨h1, h2⟩ := h
    subst h2
    have hlen := hd s
    rw [heq] at hlen
    simp only [List.length_cons] at hlen
    omega
  next => simp at h

/-- Python `template.format(**kwargs)` restricted to the feature subset the
repository uses: plain named fields `{name}`, the escapes `{{` and `}}`, and
literal text.  A lone or unbalanced brace is a `ValueError`; a field whose name
is not a supplied keyword is a `KeyError`.  (Conversion `!r` and format-spec
`:spec` suffixes, attribute access, and positional auto-numbering are not used
by any template in the repository and are not modeled; an empty field name is
reported as a lookup failure.) -/
def pyFormat (lookup : Str → Option Str) : Str → Except FmtErr Str
  | [] => .ok []
  | '{' :: '{' :: rest =>
    match pyFormat lookup rest with
    | .ok t => .ok ('{' :: t)
    | .error e => .error e
  | '}' :: '}' :: rest =>
    match pyFormat lookup rest with
    | .ok t => .ok ('}' :: t)
    | .error e => .error e
  | '{' :: rest =>
    match hsf : splitField rest with
    | none => .error .valueError
    | some (name, after) =>
      match lookup name with
      | none => .error (.keyError name)
      | some v =>
        match pyFormat lookup after with
        | .ok t => .ok (v ++ t)
        | .error e => .error e
  | '}' :: _ => .error .valueError
  | c :: rest =>
    match pyFormat lookup rest with
    | .ok t => .ok (c :: t)
    | .error e => .error e
termination_by s => s.length
decreasing_by
  all_goals simp_wf
  all_goals first
    | omega
    | (have hlen := splitField_length hsf
       omega)

/-- `format_command` of toolbox.py: `command.format(prefix=str(ctx.prefix))`. -/
def format_command (command : Str) (ctx : Ctx) : Except FmtErr Str :=
  pyFormat (fun name => if name = "prefix".data then some ctx.pfx else none) command

/-- Ways `run_command` can fail: `toolbox msg` is the `ToolboxError` raised when
the OS cannot spawn the process; `uncaught e` is a Python exception escaping
from `str.format` on a malformed template. -/
inductive RunError where
  | uncaught (e : FmtErr)
  | toolbox (msg : Str)
deriving DecidableEq

/-- `run_command` of toolbox.py.  `spawn` is the host oracle for
`subprocess.call(formatted, shell=True, env=build_env(ctx))`: `.ok code` is the
exit status of the spawned shell, `.error ()` an `OSError` during spawning.
The returned pair is (result, list of commands actually handed to the OS);
console printing (explain/verbose logging) has no effect on either and is not
modeled.  The `reason` parameter only feeds that printing. -/
def run_command (spawn : Str → Except Unit Int) (command : Str) (ctx : Ctx)
    (reason : Option Str) : Except RunError Int × List Str :=
  match format_command command ctx with
  | .error e => (.error (.uncaught e), [])
  | .ok formatted =>
    if ctx.dry_run then (.ok 0, [])
    else
      match spawn formatted with
      | .ok code => (.ok code, [formatted])
      | .error _ => (.error (.toolbox ("Failed to run command: ".data ++ formatted)), [formatted])

/-- `run_logged_command` of toolbox.py: identical to `run_command` except that
the rationale and rendered command are always printed (printing not modeled). -/
def run_logged_command (spawn : Str → Except Unit Int) (command : Str) (ctx : Ctx)
    (reason : Str) : Except RunError Int × List Str :=
  match format_command command ctx with
  | .error e => (.error (.uncaught e), [])
  | .ok formatted =>
    if ctx.dry_run then (.ok 0, [])
    else
      match spawn formatted with
      | .ok code => (.ok code, [formatted])
      | .error _ => (.error (.toolbox ("Failed to run command: ".data ++ formatted)), [formatted])

/-- `pick_available_command` of toolbox.py.  `which` is the host oracle for
`shutil.which` (PATH resolvability of an executable name).  `.error ()` models
the `IndexError` raised by `candidate.split()[0]` on a candidate with no
non-whitespace character; `.ok none` is the explicit not-found result. -/
def pick_available_command (which : Str → Bool) : List Str → Except Unit (Option Str)
  | [] => .ok none
  | candidate :: rest =>
    match firstToken candidate with
    | none => .error ()
    | some name => if which name then .ok (some candidate) else pick_available_command which rest

/-- Spec-side notion for the Fallback Resolver claims: a candidate "resolves"
when its leading executable token exists and is resolvable on the host PATH. -/
def resolvesTok (which : Str → Bool) (c : Str) : Bool :=
  match firstToken c with
  | some name => which name
  | none => false

/-- Lookup in an insertion-ordered dictionary (Python `dict.get`). -/
def dictGet {β : Type} : List (Str × β) → Str → Option β
  | [], _ => none
  | (k, v) :: rest, key => if k = key then some v else dictGet rest key

/-- Python `d[key] = value`: overwrite in place if present, else append. -/
def dictSet {β : Type} : List (Str × β) → Str → β → List (Str × β)
  | [], key, value => [(key, value)]
  | (k, v) :: rest, key, value =>
    if k = key then (key, value) :: rest else (k, v) :: dictSet rest key value

/-- `build_env` of toolbox.py: copy the inherited environment and rewrite PATH
to `<prefix>/bin` + `os.pathsep` + original PATH (POSIX separator `:`;
`str(ctx.prefix / "bin")` is the prefix path with `/bin` appended). -/
def build_env (osEnv : List (Str × Str)) (ctx : Ctx) : List (Str × Str) :=
  let pbin := ctx.pfx ++ "/bin".data
  dictSet osEnv "PATH".data (pbin ++ ':' :: ((dictGet osEnv "PATH".data).getD []))

/-- `PATH.split(os.pathsep)` with empty segments discarded (toolbox.py:414). -/
def pathEntries (path : Str) : List Str :=
  (splitSep ':' path).filter (fun e => !(e == []))

/-- The loop of `path_doctor` (toolbox.py:419-426): walk the raw entries,
normalize each, count occurrences in the `seen` dict, record a duplicate when a
count reaches exactly 2, and record every normalized entry that is not an
existing directory.  `normalize` is the host oracle for
`normalize_path_entry` (tilde / environment-variable expansion), `isDir` for
`os.path.isdir`. -/
def pdGo (normalize : Str → Str) (isDir : Str → Bool) :
    List Str → List (Str × Nat) → List Str → List Str → List Str × List Str
  | [], _, dups, miss => (dups, miss)
  | entry :: rest, seen, dups, miss =>
    let normalized := normalize entry
    let count := (dictGet seen normalized).getD 0 + 1
    let seen' := dictSet seen normalized count
    let dups' := if count = 2 then dups ++ [normalized] else dups
    let miss' := if !(isDir normalized) then miss ++ [normalized] else miss
    pdGo normalize isDir rest seen' dups' miss'

/-- Python `list(dict.fromkeys(xs))`: deduplicate keeping first occurrences. -/
def dedupFirst (seen : List Str) : List Str → List Str
  | [] => []
  | x :: xs => if seen.contains x then dedupFirst seen xs else x :: dedupFirst (x :: seen) xs

/-- `path_doctor` of toolbox.py, as the data it reports: the duplicates list and
the deduplicated missing list (printing not modeled; PATH is an input). -/
def path_doctor (normalize : Str → Str) (isDir : Str → Bool) (path : Str) :
    List Str × List Str :=
  let res := pdGo normalize isDir (pathEntries path) [] [] []
  (res.1, dedupFirst [] res.2)

/-- Spec-side description of the duplicates list: walking the normalized
entries, an entry is emitted exactly when it has appeared exactly once before
(i.e. on its second occurrence). -/
def secondOccurrences (prev : List Str) : List Str → List Str
  | [] => []
  | e :: rest =>
    (if prev.count e = 1 then [e] else []) ++ secondOccurrences (prev ++ [e]) rest

/-- Spec-side description of the raw missing list: every normalized entry that
is not an existing directory, with multiplicity, in order. -/
def missingRaw (isDir : Str → Bool) (entries : List Str) : List Str :=
  entries.filter (fun e => !(isDir e))

/-- `detect_shell_rc` of toolbox.py: `~/.zshrc` when `$SHELL` mentions zsh,
else `~/.bashrc`. -/
def detect_shell_rc (shellEnv home : Str) : Str :=
  home ++ '/' :: (if containsSub "zsh".data shellEnv then ".zshrc".data else ".bashrc".data)

/-- The backup destination chosen by `backup_file`:
`<file>.bak-<timestamp>`, the timestamp being `now().strftime("%Y%m%d%H%M%S")`
(second granularity). -/
def backupDest (rcPath ts : Str) : Str :=
  rcPath ++ ".bak-".data ++ ts

/-- Filesystem effects `setup_shell` can perform on the rc file, in order:
copy the current file to a backup destination, then rewrite the file. -/
inductive Effect where
  | backup (dst : Str)
  | write (content : Str)
deriving DecidableEq

/-- The substring by which setup_shell recognizes an existing integration line
(toolbox.py:472). -/
def initScriptRef : Str := "shell/init.sh".data

/-- The desired integration line:
`source "<ROOT>/shell/init.sh" --theme <theme>` where `<ROOT>` is the resolved
repository root (`SHELL_INIT_PATH = ROOT / "shell" / "init.sh"`). -/
def sourceLineOf (root theme : Str) : Str :=
  "source \"".data ++ root ++ "/shell/init.sh\" --theme ".data ++ theme

/-- The replacement loop of setup_shell (toolbox.py:471-476): every line
mentioning `shell/init.sh` becomes the desired line, others are kept. -/
def replaceLines (sourceLine : Str) (lines : List Str) : List Str :=
  lines.map fun l => if containsSub initScriptRef l then sourceLine else l

/-- Whether any existing line mentions the integration script (`replaced`). -/
def anyRef (lines : List Str) : Bool :=
  lines.any fun l => containsSub initScriptRef l

/-- The line list setup_shell builds before the final trailing blank
(toolbox.py:469-480): replace in place when a mention exists, otherwise append
the desired line after a blank separator when the existing content is nonempty
and does not end with a newline. -/
def preLines (sourceLine content : Str) : List Str :=
  let lines := splitlines content
  if anyRef lines then replaceLines sourceLine lines
  else
    (if !(content == []) && !(endsWithNl content) then replaceLines sourceLine lines ++ [[]]
     else replaceLines sourceLine lines) ++ [sourceLine]

/-- The full line list written back (toolbox.py:481-482): a trailing empty line
is appended when the list is nonempty. -/
def newLines (sourceLine content : Str) : List Str :=
  if !(preLines sourceLine content == []) then preLines sourceLine content ++ [[]]
  else preLines sourceLine content

/-- `setup_shell` of toolbox.py as the ordered list of filesystem effects it
performs on the rc file.  `rc` is the current state of the rc file (`none` if
absent, `some content` otherwise).  An existing file already containing the
desired line verbatim (Python substring test) is a no-op: no effects.
Otherwise the file is backed up first (only if it exists, per `backup_file`)
and then rewritten with `"\n".join(updated_lines)`. -/
def setup_shell (shellEnv home root theme ts : Str) (rc : Option Str) : List Effect :=
  let sourceLine := sourceLineOf root theme
  let content := rc.getD []
  if rc.isSome && containsSub sourceLine content then []
  else
    (if rc.isSome then [Effect.backup (backupDest (detect_shell_rc shellEnv home) ts)] else [])
      ++ [Effect.write (joinLines (newLines sourceLine content))]

/-- The state of the world setup_shell acts on: the rc file and the set of
backup files (destination paths with the contents copied there). -/
structure FS where
  rc : Option Str
  backups : List (Str × Str)
deriving DecidableEq

/-- Run an effect list against a filesystem.  `backupOk = false` models an I/O
failure of `shutil.copy2`: the raised `OSError` propagates out of
`setup_shell`, so no subsequent effect is applied. -/
def applyEffects (backupOk : Bool) : List Effect → FS → FS
  | [], fs => fs
  | Effect.backup dst :: rest, fs =>
    if backupOk then
      applyEffects backupOk rest { fs with backups := fs.backups ++ [(dst, fs.rc.getD [])] }
    else fs
  | Effect.write c :: rest, fs =>
    applyEffects backupOk rest { fs with rc := some c }

/-- Number of integration lines (lines mentioning the integration script) in a
file content. -/
def integrationLineCount (content : Str) : Nat :=
  (splitlines content).countP (fun l => containsSub initScriptRef l)

/-! ### Substring lemmas -/

theorem isPrefOf_iff : ∀ {n h : Str}, isPrefOf n h = true ↔ ∃ t, h = n ++ t := by
  intro n
  induction n with
  | nil =>
    intro h
    simp [isPrefOf]
  | cons a as ih =>
    intro h
    cases h with
    | nil => simp [isPrefOf]
    | cons b bs =>
      simp only [isPrefOf, Bool.and_eq_true, beq_iff_eq, List.cons_append, List.cons.injEq]
      constructor
      · rintro ⟨rfl, hp⟩
        obtain ⟨t, rfl⟩ := ih.mp hp
        exact ⟨t, rfl, rfl⟩
      · rintro ⟨t, hb, hbs⟩
        exact ⟨hb.symm, ih.mpr ⟨t, hbs⟩⟩

theorem containsSub_iff : ∀ {n h : Str}, containsSub n h = true ↔ ∃ a b, h = a ++ n ++ b := by
  intro n h
  induction h with
  | nil =>
    simp only [containsSub, beq_iff_eq, List.append_eq_nil]
    constructor
    · rintro rfl
      exact ⟨[], [], rfl⟩
    · rintro ⟨a, b, hab⟩
      have := hab.symm
      simp only [List.append_eq_nil] at this
      exact this.1.2
  | cons c cs ih =>
    simp only [containsSub, Bool.or_eq_true]
    constructor
    · rintro (hp | hc)
      · obtain ⟨t, ht⟩ := isPrefOf_iff.mp hp
        exact ⟨[], t, by simp [ht]⟩
      · obtain ⟨a, b, rfl⟩ := ih.mp hc
        exact ⟨c :: a, b, by simp⟩
    · rintro ⟨a, b, hab⟩
      cases a with
      | nil =>
        left
        exact isPrefOf_iff.mpr ⟨b, by simpa using hab⟩
      | cons a0 as =>
        right
        simp only [List.cons_append, List.cons.injEq] at hab
        exact ih.mpr ⟨as, b, hab.2⟩

theorem containsSub_of_parts {n h a b : Str} (hab : h = a ++ n ++ b) :
    containsSub n h = true :=
  containsSub_iff.mpr ⟨a, b, hab⟩

theorem containsSub_refl (n : Str) : containsSub n n = true :=
  containsSub_of_parts (a := []) (b := []) (by simp)

theorem containsSub_trans {x y z : Str} (h1 : containsSub x y = true)
    (h2 : containsSub y z = true) : containsSub x z = true := by
  obtain ⟨a, b, rfl⟩ := containsSub_iff.mp h1
  obtain ⟨c, d, rfl⟩ := containsSub_iff.mp h2
  exact containsSub_of_parts (a := c ++ a) (b := b ++ d) (by simp)

theorem containsSub_append_right {n t : Str} (x : Str) (h : containsSub n t = true) :
    containsSub n (x ++ t) = true := by
  obtain ⟨a, b, rfl⟩ := containsSub_iff.mp h
  exact containsSub_of_parts (a := x ++ a) (b := b) (by simp)

theorem containsSub_append_left {n t : Str} (x : Str) (h : containsSub n t = true) :
    containsSub n (t ++ x) = true := by
  obtain ⟨a, b, rfl⟩ := containsSub_iff.mp h
  exact containsSub_of_parts (a := a) (b := b ++ x) (by simp)

/-- A prefix that avoids the character `ch` stays inside the part before the
first `ch`. -/
theorem isPrefOf_before_char : ∀ {p u : Str} {ch : Char} {v : Str},
    isPrefOf p (u ++ ch :: v) = true → ch ∉ p → isPrefOf p u = true := by
  intro p
  induction p with
  | nil => intro u ch v _ _; simp [isPrefOf]
  | cons p0 ps ih =>
    intro u ch v hp hch
    cases u with
    | nil =>
      simp only [List.nil_append, isPrefOf, Bool.and_eq_true, beq_iff_eq] at hp
      exact absurd (hp.1 ▸ List.mem_cons_self p0 ps) hch
    | cons u0 us =>
      simp only [List.cons_append, isPrefOf, Bool.and_eq_true, beq_iff_eq] at hp ⊢
      exact ⟨hp.1, ih hp.2 (fun hm => hch (List.mem_cons_of_mem _ hm))⟩

/-- A substring avoiding `ch` lies entirely on one side of an occurrence of
`ch`. -/
theorem containsSub_split : ∀ {n : Str} {x : Str} {ch : Char} {y : Str},
    containsSub n (x ++ ch :: y) = true → ch ∉ n →
    containsSub n x = true ∨ containsSub n y = true := by
  intro n x
  induction x with
  | nil =>
    intro ch y hc hch
    simp only [List.nil_append, containsSub, Bool.or_eq_true] at hc
    rcases hc with hp | hc
    · cases n with
      | nil => exact Or.inl (by simp [containsSub, isPrefOf])
      | cons n0 ns =>
        simp only [isPrefOf, Bool.and_eq_true, beq_iff_eq] at hp
        exact absurd (hp.1 ▸ List.mem_cons_self n0 ns) hch
    · exact Or.inr hc
  | cons d xs ih =>
    intro ch y hc hch
    simp only [List.cons_append, containsSub, Bool.or_eq_true] at hc
    rcases hc with hp | hc
    · cases n with
      | nil => exact Or.inl (by simp [containsSub, isPrefOf])
      | cons n0 ns =>
        simp only [isPrefOf, Bool.and_eq_true, beq_iff_eq] at hp
        have hps : isPrefOf ns xs = true :=
          isPrefOf_before_char hp.2 (fun hm => hch (List.mem_cons_of_mem _ hm))
        left
        simp only [containsSub, Bool.or_eq_true, isPrefOf, Bool.and_eq_true, beq_iff_eq]
        exact Or.inl ⟨hp.1, hps⟩
    · rcases ih hc hch with h | h
      · exact Or.inl (containsSub_append_right [d] h)
      · exact Or.inr h

/-! ### splitlines lemmas -/

set_option maxHeartbeats 4000000 in
theorem splitlines_crlf (rest : Str) :
    splitlines ('\r' :: '\n' :: rest) = [] :: splitlines rest := by
  rw [splitlines.eq_def]
  split
  · rename_i heq
    simp at heq
  · rename_i r heq
    injection heq with h1 h2
    injection h2 with h3 h4
    subst h4
    rfl
  · rename_i c2 r2 hno heq
    injection heq with h1 h2
    exact (hno rest h1.symm h2.symm).elim

set_option maxHeartbeats 4000000 in
theorem splitlines_break' {c : Char} {rest : Str} (hc : isLineBreak c = true)
    (hno : ∀ r, c = '\r' → rest = '\n' :: r → False) :
    splitlines (c :: rest) = [] :: splitlines rest := by
  rw [splitlines.eq_def]
  split
  · rename_i heq
    simp at heq
  · rename_i r heq
    injection heq with h1 h2
    exact (hno r h1 h2).elim
  · rename_i c2 r2 hno2 heq
    injection heq with h1 h2
    subst h1
    subst h2
    rw [hc]
    simp

theorem splitlines_break {c : Char} (rest : Str) (hc : isLineBreak c = true)
    (hcr : c ≠ '\r') : splitlines (c :: rest) = [] :: splitlines rest :=
  splitlines_break' hc (fun _ h1 _ => absurd h1 hcr)

set_option maxHeartbeats 4000000 in
theorem splitlines_notbreak {c : Char} (rest : Str) (hc : isLineBreak c = false) :
    splitlines (c :: rest) =
      (match splitlines rest with
       | [] => [[c]]
       | l :: ls => (c :: l) :: ls) := by
  rw [splitlines.eq_def]
  split
  · rename_i heq
    simp at heq
  · rename_i r heq
    injection heq with h1 h2
    subst h1
    simp [isLineBreak] at hc
  · rename_i c2 r2 hno heq
    injection heq with h1 h2
    subst h1
    subst h2
    rw [hc]
    simp

theorem containsSub_of_isPrefOf {n h : Str} (hp : isPrefOf n h = true) :
    containsSub n h = true := by
  obtain ⟨t, rfl⟩ := isPrefOf_iff.mp hp
  exact containsSub_of_parts (a := []) (b := t) (by simp)

theorem headD_mem {α : Type} {l : List α} (d : α) (h : l ≠ []) : l.headD d ∈ l := by
  cases l with
  | nil => exact absurd rfl h
  | cons a as => simp

theorem splitlines_no_break : ∀ (s : Str), ∀ l ∈ splitlines s, ∀ c ∈ l, isLineBreak c = false := by
  intro s
  induction s using splitlines.induct with
  | case1 =>
    intro l hl
    simp [splitlines] at hl
  | case2 rest ih =>
    rw [splitlines_crlf]
    intro l hl
    rcases List.mem_cons.mp hl with rfl | hl
    · intro c hc
      simp at hc
    · exact ih l hl
  | case3 c rest hno hc ih =>
    rw [splitlines_break' hc hno]
    intro l hl
    rcases List.mem_cons.mp hl with rfl | hl
    · intro c2 hc2
      simp at hc2
    · exact ih l hl
  | case4 c rest hno hc hrest ih =>
    rw [splitlines_notbreak rest (by simpa using hc), hrest]
    intro l hl c2 hc2
    simp only [List.mem_singleton] at hl
    subst hl
    simp only [List.mem_singleton] at hc2
    subst hc2
    simpa using hc
  | case5 c rest hno hc l0 ls hrest ih =>
    rw [splitlines_notbreak rest (by simpa using hc), hrest]
    intro l hl c2 hc2
    rcases List.mem_cons.mp hl with rfl | hl
    · rcases List.mem_cons.mp hc2 with rfl | hc2
      · simpa using hc
      · exact ih l0 (hrest ▸ List.mem_cons_self _ _) c2 hc2
    · exact ih l (hrest ▸ List.mem_cons_of_mem _ hl) c2 hc2

theorem splitlines_eq_nil_iff {s : Str} : splitlines s = [] ↔ s = [] := by
  induction s using splitlines.induct with
  | case1 => simp [splitlines]
  | case2 rest ih => rw [splitlines_crlf]; simp
  | case3 c rest hno hc ih => rw [splitlines_break' hc hno]; simp
  | case4 c rest hno hc h ih => rw [splitlines_notbreak rest (by simpa using hc), h]; simp
  | case5 c rest hno hc l ls h ih => rw [splitlines_notbreak rest (by simpa using hc), h]; simp

theorem splitlines_append_nl {l : Str} (hl : ∀ c ∈ l, isLineBreak c = false) (s : Str) :
    splitlines (l ++ '\n' :: s) = l :: splitlines s := by
  induction l with
  | nil =>
    simp only [List.nil_append]
    exact splitlines_break s (by simp [isLineBreak]) (by decide)
  | cons c cs ih =>
    have hc : isLineBreak c = false := hl c (List.mem_cons_self c cs)
    simp only [List.cons_append]
    rw [splitlines_notbreak _ hc, ih (fun c2 h2 => hl c2 (List.mem_cons_of_mem _ h2))]

theorem joinLines_cons {l : Str} {ls : List Str} (h : ls ≠ []) :
    joinLines (l :: ls) = l ++ '\n' :: joinLines ls := by
  cases ls with
  | nil => exact absurd rfl h
  | cons a as => rfl

theorem splitlines_joinLines : ∀ {M : List Str}, M ≠ [] →
    (∀ l ∈ M, ∀ c ∈ l, isLineBreak c = false) →
    splitlines (joinLines (M ++ [[]])) = M := by
  intro M
  induction M with
  | nil =>
    intro h
    exact absurd rfl h
  | cons m ms ih =>
    intro _ hbf
    cases ms with
    | nil =>
      show splitlines (joinLines [m, []]) = [m]
      rw [joinLines_cons (by simp)]
      show splitlines (m ++ '\n' :: []) = [m]
      rw [splitlines_append_nl (hbf m (by simp))]
      rfl
    | cons m2 ms2 =>
      show splitlines (joinLines (m :: ((m2 :: ms2) ++ [[]]))) = m :: m2 :: ms2
      rw [joinLines_cons (by simp)]
      rw [splitlines_append_nl (hbf m (by simp))]
      rw [ih (by simp) (fun l hl => hbf l (List.mem_cons_of_mem _ hl))]

theorem containsSub_joinLines_of_mem : ∀ {M : List Str} {l : Str}, l ∈ M →
    containsSub l (joinLines M) = true := by
  intro M
  induction M with
  | nil =>
    intro l hl
    simp at hl
  | cons m ms ih =>
    intro l hl
    rcases List.mem_cons.mp hl with rfl | hl
    · cases ms with
      | nil => exact containsSub_refl l
      | cons a as =>
        rw [joinLines_cons (by simp)]
        exact containsSub_append_left _ (containsSub_refl l)
    · cases ms with
      | nil => simp at hl
      | cons a as =>
        rw [joinLines_cons (by simp)]
        have := containsSub_append_right (m ++ ['\n']) (ih hl)
        simpa using this

/-- The first line of a string (first element of `splitlines`). -/
def firstLine (s : Str) : Str := (splitlines s).headD []

theorem firstLine_cons {c : Char} (rest : Str) (hc : isLineBreak c = false) :
    firstLine (c :: rest) = c :: firstLine rest := by
  unfold firstLine
  rw [splitlines_notbreak rest hc]
  cases h : splitlines rest <;> simp

theorem isPrefOf_firstLine : ∀ {p : Str} {s : Str}, isPrefOf p s = true →
    (∀ c ∈ p, isLineBreak c = false) → isPrefOf p (firstLine s) = true := by
  intro p
  induction p with
  | nil =>
    intro s _ _
    simp [isPrefOf]
  | cons p0 ps ih =>
    intro s hp hbf
    cases s with
    | nil => simp [isPrefOf] at hp
    | cons s0 s' =>
      simp only [isPrefOf, Bool.and_eq_true, beq_iff_eq] at hp
      have h0 : isLineBreak s0 = false := hp.1 ▸ hbf p0 (List.mem_cons_self _ _)
      rw [firstLine_cons s' h0]
      simp only [isPrefOf, Bool.and_eq_true, beq_iff_eq]
      exact ⟨hp.1, ih hp.2 (fun c hc => hbf c (List.mem_cons_of_mem _ hc))⟩

theorem containsSub_cons_break {n : Str} {c : Char} {t : Str}
    (h : containsSub n (c :: t) = true) (hbf : ∀ x ∈ n, isLineBreak x = false)
    (hc : isLineBreak c = true) : containsSub n t = true := by
  cases n with
  | nil => cases t <;> simp [containsSub, isPrefOf]
  | cons n0 ns =>
    simp only [containsSub, Bool.or_eq_true] at h
    rcases h with hp | h
    · simp only [isPrefOf, Bool.and_eq_true, beq_iff_eq] at hp
      have hb := hbf n0 (List.mem_cons_self _ _)
      rw [hp.1, hc] at hb
      exact absurd hb (by simp)
    · exact h

/-- A newline-free substring of a file is a substring of one of its lines. -/
theorem containsSub_line : ∀ {s : Str} {n : Str}, containsSub n s = true → n ≠ [] →
    (∀ c ∈ n, isLineBreak c = false) → ∃ l ∈ splitlines s, containsSub n l = true := by
  intro s
  induction s using splitlines.induct with
  | case1 =>
    intro n hc hn _
    cases n with
    | nil => exact absurd rfl hn
    | cons a as => simp [containsSub] at hc
  | case2 rest ih =>
    intro n hc hn hbf
    have h1 : containsSub n ('\n' :: rest) = true :=
      containsSub_cons_break hc hbf (by simp [isLineBreak])
    have h2 : containsSub n rest = true :=
      containsSub_cons_break h1 hbf (by simp [isLineBreak])
    obtain ⟨l, hl, hs⟩ := ih h2 hn hbf
    exact ⟨l, by rw [splitlines_crlf]; exact List.mem_cons_of_mem _ hl, hs⟩
  | case3 c rest hno hc ih =>
    intro n hsub hn hbf
    have h2 : containsSub n rest = true := containsSub_cons_break hsub hbf hc
    obtain ⟨l, hl, hs⟩ := ih h2 hn hbf
    exact ⟨l, by rw [splitlines_break' hc hno]; exact List.mem_cons_of_mem _ hl, hs⟩
  | case4 c rest hno hc hrest ih =>
    intro n hsub hn hbf
    have hc' : isLineBreak c = false := by simpa using hc
    simp only [containsSub, Bool.or_eq_true] at hsub
    rcases hsub with hp | hsub
    · refine ⟨firstLine (c :: rest), ?_, containsSub_of_isPrefOf (isPrefOf_firstLine hp hbf)⟩
      exact headD_mem [] (by rw [Ne, splitlines_eq_nil_iff]; simp)
    · obtain ⟨l, hl, _⟩ := ih hsub hn hbf
      rw [hrest] at hl
      simp at hl
  | case5 c rest hno hc l0 ls hrest ih =>
    intro n hsub hn hbf
    have hc' : isLineBreak c = false := by simpa using hc
    simp only [containsSub, Bool.or_eq_true] at hsub
    rcases hsub with hp | hsub
    · refine ⟨firstLine (c :: rest), ?_, containsSub_of_isPrefOf (isPrefOf_firstLine hp hbf)⟩
      exact headD_mem [] (by rw [Ne, splitlines_eq_nil_iff]; simp)
    · obtain ⟨l, hl, hs⟩ := ih hsub hn hbf
      rw [hrest] at hl
      rw [splitlines_notbreak rest hc', hrest]
      rcases List.mem_cons.mp hl with rfl | hl
      · exact ⟨c :: l, List.mem_cons_self _ _, containsSub_append_right [c] hs⟩
      · exact ⟨l, List.mem_cons_of_mem _ hl, hs⟩

/-! ### setup_shell lemmas -/

theorem references_sourceLine (root theme : Str) :
    containsSub initScriptRef (sourceLineOf root theme) = true := by
  apply containsSub_of_parts (a := "source \"".data ++ root ++ ['/'])
    (b := "\" --theme ".data ++ theme)
  have h : ("/shell/init.sh\" --theme ".data : Str)
      = '/' :: (initScriptRef ++ "\" --theme ".data) := by decide
  simp [sourceLineOf, h, initScriptRef]

theorem sourceLine_no_break {root theme : Str} (hroot : ∀ c ∈ root, isLineBreak c = false)
    (htheme : ∀ c ∈ theme, isLineBreak c = false) :
    ∀ c ∈ sourceLineOf root theme, isLineBreak c = false := by
  intro c hc
  simp only [sourceLineOf, List.append_assoc, List.mem_append] at hc
  rcases hc with hc | hc | hc | hc
  · exact (by decide : ∀ c ∈ ("source \"".data : Str), isLineBreak c = false) c hc
  · exact hroot c hc
  · exact (by decide : ∀ c ∈ ("/shell/init.sh\" --theme ".data : Str), isLineBreak c = false) c hc
  · exact htheme c hc

theorem sourceLine_ne_nil (root theme : Str) : sourceLineOf root theme ≠ [] := by
  intro h
  unfold sourceLineOf at h
  rcases List.append_eq_nil.mp h with ⟨h1, _⟩
  rcases List.append_eq_nil.mp h1 with ⟨h2, _⟩
  rcases List.append_eq_nil.mp h2 with ⟨h3, _⟩
  exact absurd h3 (by decide)

theorem countP_ref_replaceLines {sl : Str} (hsl : containsSub initScriptRef sl = true)
    (lines : List Str) :
    (replaceLines sl lines).countP (fun l => containsSub initScriptRef l)
      = lines.countP (fun l => containsSub initScriptRef l) := by
  induction lines with
  | nil => rfl
  | cons a as ih =>
    simp only [replaceLines, List.map_cons, List.countP_cons] at *
    by_cases ha : containsSub initScriptRef a = true
    · rw [if_pos ha]
      simp [ha, hsl, ih]
    · rw [if_neg ha]
      simp [ha, ih]

theorem count_sl_replaceLines {sl : Str} (hsl : containsSub initScriptRef sl = true)
    (lines : List Str) :
    (replaceLines sl lines).count sl
      = lines.countP (fun l => containsSub initScriptRef l) := by
  induction lines with
  | nil => rfl
  | cons a as ih =>
    simp only [replaceLines, List.map_cons, List.count_cons, List.countP_cons] at *
    by_cases ha : containsSub initScriptRef a = true
    · rw [if_pos ha]
      simp [ha, ih]
    · rw [if_neg ha]
      have hne : (a == sl) = false := by
        apply beq_eq_false_iff_ne.mpr
        intro h
        rw [h, hsl] at ha
        exact ha rfl
      simp [ha, hne, ih]

theorem replaceLines_id {sl : Str} {lines : List Str} (h : anyRef lines = false) :
    replaceLines sl lines = lines := by
  unfold replaceLines
  have hall : ∀ l ∈ lines, containsSub initScriptRef l = false := by
    intro l hl
    by_contra hc
    have : anyRef lines = true :=
      List.any_eq_true.mpr ⟨l, hl, by revert hc; cases containsSub initScriptRef l <;> simp⟩
    rw [h] at this
    exact absurd this (by simp)
  calc lines.map (fun l => if containsSub initScriptRef l = true then sl else l)
      = lines.map id := List.map_congr_left (fun l hl => by rw [hall l hl]; simp)
    _ = lines := List.map_id lines

theorem countP_preLines (root theme content : Str) :
    (preLines (sourceLineOf root theme) content).countP (fun l => containsSub initScriptRef l)
      = max 1 ((splitlines content).countP (fun l => containsSub initScriptRef l)) := by
  have hsl : containsSub initScriptRef (sourceLineOf root theme) = true :=
    references_sourceLine root theme
  unfold preLines
  by_cases ha : anyRef (splitlines content) = true
  · rw [if_pos ha]
    rw [countP_ref_replaceLines hsl]
    obtain ⟨l, hl, hp⟩ := List.any_eq_true.mp ha
    have hpos : 0 < (splitlines content).countP (fun l => containsSub initScriptRef l) :=
      List.countP_pos.mpr ⟨l, hl, hp⟩
    omega
  · rw [if_neg ha]
    have hz : (splitlines content).countP (fun l => containsSub initScriptRef l) = 0 := by
      apply List.countP_eq_zero.mpr
      intro l hl
      intro hc
      exact absurd (List.any_eq_true.mpr ⟨l, hl, hc⟩) (by rw [Bool.not_eq_true] at ha ⊢; exact ha)
    rw [replaceLines_id (by revert ha; cases anyRef (splitlines content) <;> simp)]
    by_cases hb : (!(content == []) && !(endsWithNl content)) = true
    · rw [if_pos hb]
      simp only [List.countP_append, hz]
      have : containsSub initScriptRef [] = false := by decide
      simp [List.countP_cons, this, hsl]
    · rw [if_neg hb]
      simp only [List.countP_append, hz]
      simp [List.countP_cons, hsl]

theorem count_sl_preLines (root theme content : Str) :
    (preLines (sourceLineOf root theme) content).count (sourceLineOf root theme)
      = max 1 ((splitlines content).countP (fun l => containsSub initScriptRef l)) := by
  have hsl : containsSub initScriptRef (sourceLineOf root theme) = true :=
    references_sourceLine root theme
  unfold preLines
  by_cases ha : anyRef (splitlines content) = true
  · rw [if_pos ha]
    rw [count_sl_replaceLines hsl]
    obtain ⟨l, hl, hp⟩ := List.any_eq_true.mp ha
    have hpos : 0 < (splitlines content).countP (fun l => containsSub initScriptRef l) :=
      List.countP_pos.mpr ⟨l, hl, hp⟩
    omega
  · rw [if_neg ha]
    have hall : ∀ l ∈ splitlines content, containsSub initScriptRef l = false := by
      intro l hl
      by_contra hc
      have hc' : containsSub initScriptRef l = true := by
        revert hc; cases containsSub initScriptRef l <;> simp
      exact absurd (List.any_eq_true.mpr ⟨l, hl, hc'⟩)
        (by rw [Bool.not_eq_true] at ha ⊢; exact ha)
    have hz : (splitlines content).countP (fun l => containsSub initScriptRef l) = 0 :=
      List.countP_eq_zero.mpr (fun l hl hc => by rw [hall l hl] at hc; exact absurd hc (by simp))
    rw [replaceLines_id (by revert ha; cases anyRef (splitlines content) <;> simp)]
    have hnot : (sourceLineOf root theme) ∉ splitlines content := by
      intro hmem
      rw [hall _ hmem] at hsl
      exact absurd hsl (by simp)
    have hzl : (splitlines content).count (sourceLineOf root theme) = 0 :=
      List.count_eq_zero.mpr hnot
    have hznil : ([[]] : List Str).count (sourceLineOf root theme) = 0 :=
      List.count_eq_zero.mpr (by
        simp only [List.mem_singleton]
        exact sourceLine_ne_nil root theme)
    by_cases hb : (!(content == []) && !(endsWithNl content)) = true
    · rw [if_pos hb]
      simp only [List.count_append, hzl, hznil, hz]
      simp
    · rw [if_neg hb]
      simp only [List.count_append, hzl, hz]
      simp

theorem mem_sl_preLines (root theme content : Str) :
    sourceLineOf root theme ∈ preLines (sourceLineOf root theme) content := by
  unfold preLines
  by_cases ha : anyRef (splitlines content) = true
  · rw [if_pos ha]
    obtain ⟨l, hl, hp⟩ := List.any_eq_true.mp ha
    unfold replaceLines
    exact List.mem_map.mpr ⟨l, hl, by rw [if_pos hp]⟩
  · rw [if_neg ha]
    exact List.mem_append.mpr (Or.inr (by simp))

theorem preLines_ne_nil (root theme content : Str) :
    preLines (sourceLineOf root theme) content ≠ [] :=
  fun h => by
    have := mem_sl_preLines root theme content
    rw [h] at this
    simp at this

theorem newLines_eq (root theme content : Str) :
    newLines (sourceLineOf root theme) content
      = preLines (sourceLineOf root theme) content ++ [[]] := by
  unfold newLines
  rw [if_pos]
  have h := preLines_ne_nil root theme content
  revert h
  cases preLines (sourceLineOf root theme) content <;> simp

theorem preLines_no_break (root theme content : Str)
    (hroot : ∀ c ∈ root, isLineBreak c = false)
    (htheme : ∀ c ∈ theme, isLineBreak c = false) :
    ∀ l ∈ preLines (sourceLineOf root theme) content, ∀ c ∈ l, isLineBreak c = false := by
  have hsrc := sourceLine_no_break hroot htheme
  have hrep : ∀ l ∈ replaceLines (sourceLineOf root theme) (splitlines content),
      ∀ c ∈ l, isLineBreak c = false := by
    intro l hl
    unfold replaceLines at hl
    obtain ⟨l0, hl0, heq⟩ := List.mem_map.mp hl
    by_cases h0 : containsSub initScriptRef l0 = true
    · rw [if_pos h0] at heq
      exact heq ▸ hsrc
    · rw [if_neg h0] at heq
      exact heq ▸ splitlines_no_break content l0 hl0
  intro l hl
  unfold preLines at hl
  by_cases ha : anyRef (splitlines content) = true
  · rw [if_pos ha] at hl
    exact hrep l hl
  · rw [if_neg ha] at hl
    rcases List.mem_append.mp hl with hl | hl
    · by_cases hb : (!(content == []) && !(endsWithNl content)) = true
      · rw [if_pos hb] at hl
        rcases List.mem_append.mp hl with hl | hl
        · exact hrep l hl
        · simp only [List.mem_singleton] at hl
          subst hl
          intro c hc
          simp at hc
      · rw [if_neg hb] at hl
        exact hrep l hl
    · simp only [List.mem_singleton] at hl
      subst hl
      exact hsrc

theorem splitlines_newContent (root theme content : Str)
    (hroot : ∀ c ∈ root, isLineBreak c = false)
    (htheme : ∀ c ∈ theme, isLineBreak c = false) :
    splitlines (joinLines (newLines (sourceLineOf root theme) content))
      = preLines (sourceLineOf root theme) content := by
  rw [newLines_eq]
  exact splitlines_joinLines (preLines_ne_nil root theme content)
    (preLines_no_break root theme content hroot htheme)

theorem sl_in_newContent (root theme content : Str) :
    containsSub (sourceLineOf root theme)
      (joinLines (newLines (sourceLineOf root theme) content)) = true := by
  apply containsSub_joinLines_of_mem
  rw [newLines_eq]
  exact List.mem_append.mpr (Or.inl (mem_sl_preLines root theme content))

theorem count_pos_of_sl_in {root theme content : Str}
    (hroot : ∀ c ∈ root, isLineBreak c = false)
    (htheme : ∀ c ∈ theme, isLineBreak c = false)
    (h : containsSub (sourceLineOf root theme) content = true) :
    0 < integrationLineCount content := by
  obtain ⟨l, hl, hs⟩ := containsSub_line h (sourceLine_ne_nil root theme)
    (sourceLine_no_break hroot htheme)
  unfold integrationLineCount
  exact List.countP_pos.mpr ⟨l, hl, containsSub_trans (references_sourceLine root theme) hs⟩

theorem setup_shell_noop {shellEnv home root theme ts : Str} {rc : Option Str}
    (h1 : rc.isSome = true) (h2 : containsSub (sourceLineOf root theme) (rc.getD []) = true) :
    setup_shell shellEnv home root theme ts rc = [] := by
  unfold setup_shell
  rw [if_pos (by simp [h1, h2])]

theorem setup_shell_write {shellEnv home root theme ts : Str} {rc : Option Str}
    (hnoop : ¬(rc.isSome = true ∧
      containsSub (sourceLineOf root theme) (rc.getD []) = true)) :
    setup_shell shellEnv home root theme ts rc =
      (if rc.isSome then [Effect.backup (backupDest (detect_shell_rc shellEnv home) ts)]
       else [])
        ++ [Effect.write (joinLines (newLines (sourceLineOf root theme) (rc.getD [])))] := by
  unfold setup_shell
  rw [if_neg]
  simpa [Bool.and_eq_true] using hnoop

theorem applyEffects_write (b : Bool) (c : Str) (fs : FS) :
    applyEffects b [Effect.write c] fs = { fs with rc := some c } := rfl

theorem applyEffects_backup_write (c d : Str) (fs : FS) :
    applyEffects true [Effect.backup d, Effect.write c] fs
      = { rc := some c, backups := fs.backups ++ [(d, fs.rc.getD [])] } := rfl

theorem applyEffects_backup_fail (d : Str) (rest : List Effect) (fs : FS) :
    applyEffects false (Effect.backup d :: rest) fs = fs := rfl

/-! ### Concrete demo inputs for witnesses and counterexamples -/

def demoShell : Str := "bash".data

def demoHome : Str := "/home/user".data

def demoRoot : Str := "/repo".data

def demoTs : Str := "20250101000000".data

def demoTs2 : Str := "20250101000001".data

/-- A resource file holding two distinct lines that both mention the
integration script. -/
def demoTwoRef : Str := "alpha shell/init.sh old\nbeta shell/init.sh old".data

/-- A resource file with no integration line. -/
def demoPlain : Str := "export X=1".data

/-- A resource file holding exactly one integration line, themed `minimal`
against root `/repo`. -/
def demoOneMinimal : Str :=
  "export PATH\nsource \"/repo/shell/init.sh\" --theme minimal\n".data

/-! ### Claim C1 -/

/-- C1, counterexample.  The claim says that starting from **any** resource
file, one call to `install_or_update(theme)` leaves exactly one integration
line.  Starting from a file with two lines mentioning `shell/init.sh`, one call
replaces both with the desired line, leaving two integration lines, not one. -/
theorem C1_counterexample :
    integrationLineCount
        ((applyEffects true
            (setup_shell demoShell demoHome demoRoot "minimal".data demoTs (some demoTwoRef))
            { rc := some demoTwoRef, backups := [] }).rc.getD []) = 2
    ∧ ¬ integrationLineCount
        ((applyEffects true
            (setup_shell demoShell demoHome demoRoot "minimal".data demoTs (some demoTwoRef))
            { rc := some demoTwoRef, backups := [] }).rc.getD []) = 1 := by
  decide

/-- C1 (amended): starting from a resource file in which **at most one** line
mentions the integration script (the root and theme being free of line-break
characters), one call to `setup_shell` leaves the file with exactly one
integration line, and a second call with the same theme (any timestamp) is a
pure no-op: it performs no effects at all (zero writes, zero backups). -/
theorem C1_install_idempotent (shellEnv home root theme ts ts2 : Str)
    (rc : Option Str) (fs : FS)
    (hfs : fs.rc = rc)
    (hroot : ∀ c ∈ root, isLineBreak c = false)
    (htheme : ∀ c ∈ theme, isLineBreak c = false)
    (hcount : integrationLineCount (rc.getD []) ≤ 1) :
    integrationLineCount
        ((applyEffects true (setup_shell shellEnv home root theme ts rc) fs).rc.getD []) = 1
    ∧ setup_shell shellEnv home root theme ts2
        ((applyEffects true (setup_shell shellEnv home root theme ts rc) fs).rc) = [] := by
  by_cases hno : rc.isSome = true ∧ containsSub (sourceLineOf root theme) (rc.getD []) = true
  · rw [setup_shell_noop hno.1 hno.2]
    have happ : applyEffects true [] fs = fs := rfl
    rw [happ, hfs]
    constructor
    · have hpos := count_pos_of_sl_in hroot htheme hno.2
      omega
    · exact setup_shell_noop hno.1 hno.2
  · rw [setup_shell_write hno]
    have happ : (applyEffects true
        ((if rc.isSome then [Effect.backup (backupDest (detect_shell_rc shellEnv home) ts)]
          else [])
          ++ [Effect.write (joinLines (newLines (sourceLineOf root theme) (rc.getD [])))])
        fs).rc
        = some (joinLines (newLines (sourceLineOf root theme) (rc.getD []))) := by
      cases hrc : rc.isSome <;> simp [hrc, applyEffects]
    rw [happ]
    constructor
    · show integrationLineCount (joinLines (newLines (sourceLineOf root theme) (rc.getD []))) = 1
      unfold integrationLineCount
      rw [splitlines_newContent root theme _ hroot htheme, countP_preLines]
      unfold integrationLineCount at hcount
      omega
    · exact setup_shell_noop rfl
        (by simpa using sl_in_newContent root theme (rc.getD []))

/-- C1 witness: concrete instantiation of `C1_install_idempotent` on a plain
one-line rc file. -/
theorem C1_install_idempotent_witness :
    integrationLineCount
        ((applyEffects true
            (setup_shell demoShell demoHome demoRoot "minimal".data demoTs (some demoPlain))
            { rc := some demoPlain, backups := [] }).rc.getD []) = 1
    ∧ setup_shell demoShell demoHome demoRoot "minimal".data demoTs2
        ((applyEffects true
            (setup_shell demoShell demoHome demoRoot "minimal".data demoTs (some demoPlain))
            { rc := some demoPlain, backups := [] }).rc) = [] :=
  C1_install_idempotent demoShell demoHome demoRoot "minimal".data demoTs demoTs2
    (some demoPlain) { rc := some demoPlain, backups := [] }
    rfl (by decide) (by decide) (by decide)

/-! ### Claim C10 -/

/-- C10: when the resource file holds `n ≥ 2` lines mentioning the integration
script (and does not hold the desired line verbatim), the write replaces every
such line, so the written file holds `n` identical copies of the desired line:
uniqueness is not restored. -/
theorem C10_multiple_lines_replaced (shellEnv home root theme ts content : Str)
    (hroot : ∀ c ∈ root, isLineBreak c = false)
    (htheme : ∀ c ∈ theme, isLineBreak c = false)
    (hnew : containsSub (sourceLineOf root theme) content = false)
    (hn : 2 ≤ integrationLineCount content) :
    ∃ c, setup_shell shellEnv home root theme ts (some content)
        = [Effect.backup (backupDest (detect_shell_rc shellEnv home) ts), Effect.write c]
      ∧ (splitlines c).count (sourceLineOf root theme) = integrationLineCount content
      ∧ integrationLineCount c = integrationLineCount content := by
  have hnoop : ¬((some content).isSome = true ∧
      containsSub (sourceLineOf root theme) ((some content).getD []) = true) := by
    simp [hnew]
  have hw := @setup_shell_write shellEnv home root theme ts (some content) hnoop
  simp only [Option.isSome_some, if_true, Option.getD_some, List.singleton_append] at hw
  refine ⟨joinLines (newLines (sourceLineOf root theme) content), hw, ?_, ?_⟩
  · rw [splitlines_newContent root theme content hroot htheme, count_sl_preLines]
    unfold integrationLineCount at hn ⊢
    omega
  · unfold integrationLineCount
    rw [splitlines_newContent root theme content hroot htheme, countP_preLines]
    unfold integrationLineCount at hn
    omega

/-- C10 witness: concrete instantiation of `C10_multiple_lines_replaced` on a
file with two integration lines. -/
theorem C10_multiple_lines_replaced_witness :
    ∃ c, setup_shell demoShell demoHome demoRoot "minimal".data demoTs (some demoTwoRef)
        = [Effect.backup (backupDest (detect_shell_rc demoShell demoHome) demoTs),
           Effect.write c]
      ∧ (splitlines c).count (sourceLineOf demoRoot "minimal".data)
          = integrationLineCount demoTwoRef
      ∧ integrationLineCount c = integrationLineCount demoTwoRef :=
  C10_multiple_lines_replaced demoShell demoHome demoRoot "minimal".data demoTs demoTwoRef
    (by decide) (by decide) (by decide) (by decide)

/-! ### Claim C3 -/

/-- C3: on a pre-existing resource file holding exactly one integration line
and not already holding the desired line (e.g. a differently-themed one),
`setup_shell` performs exactly one backup — to the path carrying the
second-granularity timestamp — strictly before the single write; a failing
backup aborts everything, leaving the file (and backups) untouched; the
written file holds exactly one integration line, which is the desired line for
the new theme.  In general, any run on an existing file either is a no-op or
performs exactly the backup-then-write pair. -/
theorem C3_backup_before_write (shellEnv home root theme ts content : Str) (fs : FS)
    (hfs : fs.rc = some content)
    (hroot : ∀ c ∈ root, isLineBreak c = false)
    (htheme : ∀ c ∈ theme, isLineBreak c = false)
    (hone : integrationLineCount content = 1)
    (hnew : containsSub (sourceLineOf root theme) content = false) :
    ∃ c,
      setup_shell shellEnv home root theme ts (some content)
        = [Effect.backup (backupDest (detect_shell_rc shellEnv home) ts), Effect.write c]
      ∧ applyEffects true (setup_shell shellEnv home root theme ts (some content)) fs
          = { rc := some c,
              backups := fs.backups
                ++ [(backupDest (detect_shell_rc shellEnv home) ts, content)] }
      ∧ applyEffects false (setup_shell shellEnv home root theme ts (some content)) fs = fs
      ∧ integrationLineCount c = 1
      ∧ (splitlines c).count (sourceLineOf root theme) = 1
      ∧ (∀ rc0 : Option Str, rc0.isSome = true →
          setup_shell shellEnv home root theme ts rc0 = [] ∨
          ∃ c0, setup_shell shellEnv home root theme ts rc0
            = [Effect.backup (backupDest (detect_shell_rc shellEnv home) ts),
               Effect.write c0]) := by
  have hnoop : ¬((some content).isSome = true ∧
      containsSub (sourceLineOf root theme) ((some content).getD []) = true) := by
    simp [hnew]
  have hw := @setup_shell_write shellEnv home root theme ts (some content) hnoop
  simp only [Option.isSome_some, if_true, Option.getD_some, List.singleton_append] at hw
  refine ⟨joinLines (newLines (sourceLineOf root theme) content), hw, ?_, ?_, ?_, ?_, ?_⟩
  · rw [hw, applyEffects_backup_write, hfs]
    simp
  · rw [hw]
    exact applyEffects_backup_fail _ _ _
  · unfold integrationLineCount
    rw [splitlines_newContent root theme content hroot htheme, countP_preLines]
    unfold integrationLineCount at hone
    omega
  · rw [splitlines_newContent root theme content hroot htheme, count_sl_preLines]
    unfold integrationLineCount at hone
    omega
  · intro rc0 h0
    by_cases hno : rc0.isSome = true ∧
        containsSub (sourceLineOf root theme) (rc0.getD []) = true
    · exact Or.inl (setup_shell_noop hno.1 hno.2)
    · right
      refine ⟨joinLines (newLines (sourceLineOf root theme) (rc0.getD [])), ?_⟩
      rw [setup_shell_write hno, h0]
      simp

/-- C3 witness: concrete instantiation of `C3_backup_before_write` replacing a
`minimal`-themed integration line by the `vivid` one. -/
theorem C3_backup_before_write_witness :
    ∃ c,
      setup_shell demoShell demoHome demoRoot "vivid".data demoTs (some demoOneMinimal)
        = [Effect.backup (backupDest (detect_shell_rc demoShell demoHome) demoTs),
           Effect.write c]
      ∧ applyEffects true (setup_shell demoShell demoHome demoRoot "vivid".data demoTs
            (some demoOneMinimal)) { rc := some demoOneMinimal, backups := [] }
          = { rc := some c,
              backups := [(backupDest (detect_shell_rc demoShell demoHome) demoTs,
                demoOneMinimal)] }
      ∧ applyEffects false (setup_shell demoShell demoHome demoRoot "vivid".data demoTs
            (some demoOneMinimal)) { rc := some demoOneMinimal, backups := [] }
          = { rc := some demoOneMinimal, backups := [] }
      ∧ integrationLineCount c = 1
      ∧ (splitlines c).count (sourceLineOf demoRoot "vivid".data) = 1
      ∧ (∀ rc0 : Option Str, rc0.isSome = true →
          setup_shell demoShell demoHome demoRoot "vivid".data demoTs rc0 = [] ∨
          ∃ c0, setup_shell demoShell demoHome demoRoot "vivid".data demoTs rc0
            = [Effect.backup (backupDest (detect_shell_rc demoShell demoHome) demoTs),
               Effect.write c0]) := by
  have h := C3_backup_before_write demoShell demoHome demoRoot "vivid".data demoTs
    demoOneMinimal { rc := some demoOneMinimal, backups := [] }
    rfl (by decide) (by decide) (by decide) (by decide)
  simpa using h

/-! ### Claims C2 and C9: the Fallback Resolver -/

theorem pick_first_resolving (which : Str → Bool) :
    ∀ l : List Str, (∀ c ∈ l, (firstToken c).isSome = true) →
    pick_available_command which l = .ok (l.find? (resolvesTok which)) := by
  intro l
  induction l with
  | nil => intro _; rfl
  | cons c rest ih =>
    intro hall
    have hc := hall c (List.mem_cons_self _ _)
    simp only [pick_available_command]
    cases ht : firstToken c with
    | none => rw [ht] at hc; simp at hc
    | some name =>
      dsimp only
      by_cases hw : which name = true
      · have hres : resolvesTok which c = true := by unfold resolvesTok; rw [ht]; exact hw
        rw [List.find?_cons_of_pos _ hres, hw]
        simp
      · have hres : resolvesTok which c = false := by
          unfold resolvesTok
          rw [ht]
          simpa using hw
        rw [List.find?_cons_of_neg _ (by simp [hres])]
        have hw' : which name = false := by simpa using hw
        rw [hw']
        simp only [Bool.false_eq_true, if_false]
        exact ih (fun d hd => hall d (List.mem_cons_of_mem _ hd))

/-- C2, counterexample.  The claim quantifies over every ordered candidate
list and requires an explicit not-found result (`None`) when no candidate's
executable resolves.  On the list `[" "]` (a whitespace-only candidate) no
candidate resolves, yet the code raises `IndexError` from
`candidate.split()[0]` instead of returning `None`. -/
theorem C2_counterexample :
    pick_available_command (fun _ => false) [" ".data] = .error ()
    ∧ pick_available_command (fun _ => false) [" ".data] ≠ .ok none := by
  have h1 : pick_available_command (fun _ => false) [" ".data] = .error () := rfl
  refine ⟨h1, ?_⟩
  rw [h1]
  simp

/-- C2 (amended): for every candidate list in which each candidate contains at
least one non-whitespace character, `pick_available_command` returns `.ok` of
the first candidate whose leading whitespace-delimited token resolves on PATH
(`List.find?`), and `.ok none` when no candidate's token resolves — never a
default.  In particular on `[A, B, C]` with A and B resolving it returns A. -/
theorem C2_first_resolvable (which : Str → Bool) (l : List Str)
    (hall : ∀ c ∈ l, (firstToken c).isSome = true) :
    pick_available_command which l = .ok (l.find? (resolvesTok which)) :=
  pick_first_resolving which l hall

/-- C2 witness: on `[A, B, C]` where the tokens of A and B resolve, the result
is A (never B), by `C2_first_resolvable`.  A carries a leading no-break space
(`\xa0`), one of the non-ASCII whitespace characters `str.split()` strips, so
its leading token is still `a`. -/
theorem C2_first_resolvable_witness :
    pick_available_command (fun n => n == "a".data || n == "b".data)
      ["\xa0a 1".data, "b 2".data, "c 3".data] = .ok (some "\xa0a 1".data) := by
  rw [C2_first_resolvable (fun n => n == "a".data || n == "b".data)
    ["\xa0a 1".data, "b 2".data, "c 3".data] (by decide)]
  rfl

/-- C9: the resolver is total exactly under the precondition that every
candidate has a non-whitespace character: (a) under the precondition the
result is always `.ok`; (b) a whitespace-only candidate that is reached (no
earlier candidate resolves) makes the resolver fail (`IndexError`) instead of
skipping the candidate or treating it as unavailable. -/
theorem C9_token_totality (which : Str → Bool) :
    (∀ l : List Str, (∀ c ∈ l, (firstToken c).isSome = true) →
      ∃ r, pick_available_command which l = .ok r)
    ∧ (∀ (pre : List Str) (c : Str) (suf : List Str), firstToken c = none →
        (∀ d ∈ pre, resolvesTok which d = false) →
        pick_available_command which (pre ++ c :: suf) = .error ()) := by
  constructor
  · intro l hall
    exact ⟨l.find? (resolvesTok which), pick_first_resolving which l hall⟩
  · intro pre
    induction pre with
    | nil =>
      intro c suf hc _
      simp only [List.nil_append, pick_available_command]
      rw [hc]
    | cons d ds ih =>
      intro c suf hc hall
      have hd := hall d (List.mem_cons_self _ _)
      simp only [List.cons_append, pick_available_command]
      cases ht : firstToken d with
      | none => rfl
      | some name =>
        dsimp only
        have hw : which name = false := by
          unfold resolvesTok at hd
          rw [ht] at hd
          exact hd
        rw [hw]
        simp only [Bool.false_eq_true, if_false]
        exact ih c suf hc (fun e he => hall e (List.mem_cons_of_mem _ he))

/-- C9 witness: both parts of `C9_token_totality` at concrete inputs; the
whitespace-only candidate that fails is `"\x1c\xa0"`, made of the file
separator and the no-break space — non-ASCII members of the `str.split()`
whitespace set. -/
theorem C9_token_totality_witness :
    (∃ r, pick_available_command (fun _ => false) ["ls -la".data] = .ok r)
    ∧ pick_available_command (fun _ => false)
        ["zz".data, "\x1c\xa0".data, "x".data] = .error () := by
  constructor
  · exact (C9_token_totality (fun _ => false)).1 ["ls -la".data] (by decide)
  · exact (C9_token_totality (fun _ => false)).2 ["zz".data] "\x1c\xa0".data
      ["x".data] (by decide) (by decide)

/-! ### pyFormat equation lemmas (the definition uses well-founded recursion,
so concrete runs are derived through these equations) -/

set_option maxHeartbeats 4000000 in
theorem pyFormat_nil (lookup : Str → Option Str) : pyFormat lookup [] = .ok [] := by
  rw [pyFormat.eq_def]

set_option maxHeartbeats 4000000 in
theorem pyFormat_cons_plain (lookup : Str → Option Str) {c : Char} (rest : Str)
    (h1 : c ≠ '{') (h2 : c ≠ '}') :
    pyFormat lookup (c :: rest) =
      (match pyFormat lookup rest with
       | .ok t => .ok (c :: t)
       | .error e => .error e) := by
  rw [pyFormat.eq_def]
  split
  · rename_i heq
    simp at heq
  · rename_i r heq
    injection heq with i1 i2
    exact absurd i1 h1
  · rename_i r heq
    injection heq with i1 i2
    exact absurd i1 h2
  · rename_i r heq
    injection heq with i1 i2
    exact absurd i1 h1
  · rename_i t heq
    injection heq with i1 i2
    exact absurd i1 h2
  · rename_i c2 r2 heq
    injection heq with i1 i2
    subst i1
    subst i2
    rfl

set_option maxHeartbeats 4000000 in
theorem pyFormat_open_aux (lookup : Str → Option Str) (rest : Str)
    (h : rest.head? ≠ some '{') (res : Except FmtErr Str)
    (hres : (match splitField rest with
      | none => Except.error FmtErr.valueError
      | some (name, after) =>
        match lookup name with
        | none => Except.error (FmtErr.keyError name)
        | some v =>
          match pyFormat lookup after with
          | Except.ok t => Except.ok (v ++ t)
          | Except.error e => Except.error e) = res) :
    pyFormat lookup ('{' :: rest) = res := by
  rw [pyFormat.eq_def]
  split
  · rename_i heq
    simp at heq
  · rename_i r heq
    injection heq with i1 i2
    rw [i2] at h
    simp at h
  · rename_i r heq
    injection heq with i1 i2
    exact absurd i1 (by decide)
  · rename_i r heq
    injection heq with i1 i2
    subst i2
    rw [← hres]
    split
    · rename_i hsp
      rw [hsp]
    · rename_i name after hsp
      rw [hsp]
  · rename_i t heq
    injection heq with i1 i2
    exact absurd i1 (by decide)
  · rename_i c2 r2 ex2 ex3 ex4 ex5 heq
    injection heq with i1 i2
    exact (ex4 i1.symm).elim

theorem pyFormat_open_none (lookup : Str → Option Str) (rest : Str)
    (h : rest.head? ≠ some '{') (hsp : splitField rest = none) :
    pyFormat lookup ('{' :: rest) = .error .valueError :=
  pyFormat_open_aux lookup rest h _ (by rw [hsp])

theorem pyFormat_open_keyerr (lookup : Str → Option Str) (rest name after : Str)
    (h : rest.head? ≠ some '{') (hsp : splitField rest = some (name, after))
    (hlk : lookup name = none) :
    pyFormat lookup ('{' :: rest) = .error (.keyError name) :=
  pyFormat_open_aux lookup rest h _ (by rw [hsp]; dsimp only; rw [hlk])

theorem pyFormat_open_subst (lookup : Str → Option Str) (rest name after v : Str)
    (h : rest.head? ≠ some '{') (hsp : splitField rest = some (name, after))
    (hlk : lookup name = some v) :
    pyFormat lookup ('{' :: rest) =
      (match pyFormat lookup after with
       | .ok t => .ok (v ++ t)
       | .error e => .error e) :=
  pyFormat_open_aux lookup rest h _ (by rw [hsp]; dsimp only; rw [hlk])

/-- Brace-free strings render to themselves. -/
theorem pyFormat_no_brace (lookup : Str → Option Str) :
    ∀ s : Str, (∀ c ∈ s, c ≠ '{' ∧ c ≠ '}') → pyFormat lookup s = .ok s := by
  intro s
  induction s with
  | nil => intro _; exact pyFormat_nil lookup
  | cons c rest ih =>
    intro h
    have hc := h c (List.mem_cons_self _ _)
    rw [pyFormat_cons_plain lookup rest hc.1 hc.2,
      ih (fun x hx => (h x (List.mem_cons_of_mem _ hx)))]

/-- Rendering the template `{foo}` raises a `KeyError` (for any context). -/
theorem format_command_foo (ctx : Ctx) :
    format_command "{foo}".data ctx = .error (.keyError "foo".data) := by
  unfold format_command
  have hdata : "{foo}".data = '{' :: "foo\x7d".data := by decide
  rw [hdata]
  exact pyFormat_open_keyerr
    (fun name => if name = "prefix".data then some ctx.pfx else none)
    "foo\x7d".data "foo".data [] (by decide) (by decide)
    (by dsimp only; rw [if_neg (by decide)])

/-- A demonstration context (dry-run off). -/
def demoCtx : Ctx :=
  { verbose := false, dry_run := false, explain := false, colour := false,
    pfx := "/pfx".data }

/-- A demonstration context with dry-run enabled. -/
def demoCtxDry : Ctx :=
  { verbose := false, dry_run := true, explain := false, colour := false,
    pfx := "/pfx".data }

/-! ### Claim C5 -/

/-- C5, counterexample.  The claim says braces other than the `{prefix}`
placeholder pass through un-substituted rather than causing a failure.  In
fact `str.format` raises: an unknown placeholder `{foo}` is a `KeyError` (it
is not returned unchanged), and a lone `{` is a `ValueError`. -/
theorem C5_counterexample :
    format_command "{foo}".data demoCtx = .error (.keyError "foo".data)
    ∧ format_command "{foo}".data demoCtx ≠ .ok "{foo}".data
    ∧ format_command "\x7b".data demoCtx = .error .valueError := by
  have h1 := format_command_foo demoCtx
  have h2 : format_command "\x7b".data demoCtx = .error .valueError := by
    unfold format_command
    have hdata : "\x7b".data = '{' :: [] := by decide
    rw [hdata]
    exact pyFormat_open_none _ _ (by decide) rfl
  exact ⟨h1, by rw [h1]; simp, h2⟩

/-- The template `echo {prefix}`, built from characters (the placeholder
braces written as character literals). -/
def echoTemplate : Str := "echo ".data ++ '{' :: "prefix".data ++ ['\x7d']

/-- Rendering substitutes the prefix placeholder with the context's prefix
path. -/
theorem format_command_subst_demo (ctx : Ctx) :
    format_command echoTemplate ctx = .ok ("echo ".data ++ ctx.pfx) := by
  unfold format_command
  have hdata : echoTemplate
      = 'e' :: 'c' :: 'h' :: 'o' :: ' ' :: '{' :: ("prefix".data ++ ['\x7d']) := by
    decide
  rw [hdata]
  rw [pyFormat_cons_plain _ _ (by decide) (by decide)]
  rw [pyFormat_cons_plain _ _ (by decide) (by decide)]
  rw [pyFormat_cons_plain _ _ (by decide) (by decide)]
  rw [pyFormat_cons_plain _ _ (by decide) (by decide)]
  rw [pyFormat_cons_plain _ _ (by decide) (by decide)]
  rw [pyFormat_open_subst _ _ "prefix".data [] ctx.pfx (by decide) (by decide)
    (by dsimp only; rw [if_pos rfl])]
  rw [pyFormat_nil]
  have hecho : ("echo ".data : Str) = ['e', 'c', 'h', 'o', ' '] := by decide
  simp [hecho]

/-- C5 (amended): rendering is the identity on strings containing no brace
character at all (idempotent on fully-rendered, brace-free strings), and brace
constructs are specially processed rather than passed through: `{prefix}` is
substituted with the context prefix (and, per `C5_counterexample`, unknown
placeholders raise `KeyError` and a lone brace raises `ValueError`). -/
theorem C5_render_passthrough (s : Str) (ctx : Ctx)
    (h : ∀ c ∈ s, c ≠ '{' ∧ c ≠ '}') :
    format_command s ctx = .ok s
    ∧ (∀ ctx2 : Ctx, format_command echoTemplate ctx2
        = .ok ("echo ".data ++ ctx2.pfx)) :=
  ⟨pyFormat_no_brace _ s h, format_command_subst_demo⟩

/-- C5 witness: `C5_render_passthrough` at a concrete brace-free command. -/
theorem C5_render_passthrough_witness :
    format_command "apt-get install fzf".data demoCtx = .ok "apt-get install fzf".data
    ∧ (∀ ctx2 : Ctx, format_command echoTemplate ctx2
        = .ok ("echo ".data ++ ctx2.pfx)) :=
  C5_render_passthrough "apt-get install fzf".data demoCtx (by decide)

/-! ### Claim C4 -/

/-- C4, counterexample.  The claim says every template with `dry_run=true`
returns status 0.  For the template `{foo}`, rendering happens before the
dry-run check, so the `KeyError` escapes and no status is returned (no process
is spawned either). -/
theorem C4_counterexample :
    (run_command (fun _ => .ok 0) "{foo}".data demoCtxDry none).1
      = .error (.uncaught (.keyError "foo".data))
    ∧ (run_command (fun _ => .ok 0) "{foo}".data demoCtxDry none).1 ≠ .ok 0 := by
  have h1 := format_command_foo demoCtxDry
  unfold run_command
  rw [h1]
  exact ⟨rfl, by simp⟩

/-- C4 (amended): with `dry_run = true`, neither `run_command` nor
`run_logged_command` ever spawns a subprocess (empty spawn list), and whenever
the template's rendering succeeds both return exit status 0.  (For a template
whose rendering fails, the render exception escapes before the dry-run check,
so "returns status 0" holds only under the rendering-succeeds proviso.) -/
theorem C4_dry_run (spawn : Str → Except Unit Int) (command : Str) (ctx : Ctx)
    (reason : Option Str) (lreason : Str) (hdry : ctx.dry_run = true) :
    (run_command spawn command ctx reason).2 = []
    ∧ (run_logged_command spawn command ctx lreason).2 = []
    ∧ (∀ f, format_command command ctx = .ok f →
        run_command spawn command ctx reason = (.ok 0, [])
        ∧ run_logged_command spawn command ctx lreason = (.ok 0, [])) := by
  unfold run_command run_logged_command
  cases hf : format_command command ctx with
  | error e => simp
  | ok f => simp [hdry]

/-- C4 witness: `C4_dry_run` on a concrete well-formed template in dry-run
mode: status 0 and an empty spawn list from both runners. -/
theorem C4_dry_run_witness :
    run_command (fun _ => .ok 7) "echo hi".data demoCtxDry none = (.ok 0, [])
    ∧ run_logged_command (fun _ => .ok 7) "echo hi".data demoCtxDry "why".data
        = (.ok 0, []) :=
  (C4_dry_run (fun _ => .ok 7) "echo hi".data demoCtxDry none "why".data rfl).2.2
    "echo hi".data (pyFormat_no_brace _ _ (by decide))

/-! ### Claim C6 -/

/-- C6: `run_command` produces the structured `ToolboxError` exactly when a
launch was attempted and the OS failed to spawn the process (rendering
succeeded, dry-run off, the spawn oracle errored); and a spawned process's
exit status — zero or not — is returned verbatim, never turned into an
error. -/
theorem C6_launch_error_iff (spawn : Str → Except Unit Int) (command : Str) (ctx : Ctx)
    (reason : Option Str) :
    ((∃ msg, (run_command spawn command ctx reason).1 = .error (.toolbox msg))
      ↔ (ctx.dry_run = false
          ∧ ∃ f, format_command command ctx = .ok f ∧ spawn f = .error ()))
    ∧ (∀ f code, format_command command ctx = .ok f → ctx.dry_run = false →
        spawn f = .ok code →
        run_command spawn command ctx reason = (.ok code, [f])) := by
  cases hf : format_command command ctx with
  | error e =>
    constructor
    · constructor
      · rintro ⟨msg, hm⟩
        simp [run_command, hf] at hm
      · rintro ⟨_, f, hf2, _⟩
        exact absurd hf2 (by simp)
    · intro f code hf2 _ _
      exact absurd hf2 (by simp)
  | ok f0 =>
    cases hdry : ctx.dry_run with
    | true =>
      constructor
      · constructor
        · rintro ⟨msg, hm⟩
          simp [run_command, hf, hdry] at hm
        · rintro ⟨hd, _⟩
          exact absurd hd (by simp)
      · intro f code _ hd _
        exact absurd hd (by simp)
    | false =>
      cases hs : spawn f0 with
      | ok code =>
        constructor
        · constructor
          · rintro ⟨msg, hm⟩
            simp [run_command, hf, hdry, hs] at hm
          · rintro ⟨_, f, hf2, hsf⟩
            injection hf2 with hff
            rw [← hff, hs] at hsf
            exact absurd hsf (by simp)
        · intro f code2 hf2 _ hs2
          injection hf2 with hff
          rw [← hff] at hs2
          rw [hs] at hs2
          injection hs2 with hcc
          rw [← hff, ← hcc]
          simp [run_command, hf, hdry, hs]
      | error u =>
        constructor
        · constructor
          · rintro _
            exact ⟨rfl, f0, rfl, hs⟩
          · rintro _
            exact ⟨"Failed to run command: ".data ++ f0,
              by simp [run_command, hf, hdry, hs]⟩
        · intro f code hf2 _ hs2
          injection hf2 with hff
          rw [← hff, hs] at hs2
          exact absurd hs2 (by simp)

/-- C6 witness: a process exiting with the non-zero status 7 is not an error —
the status is returned verbatim, via `C6_launch_error_iff`. -/
theorem C6_launch_error_iff_witness :
    run_command (fun _ => .ok 7) "mtr -rw host".data demoCtx none
      = (.ok 7, ["mtr -rw host".data]) :=
  (C6_launch_error_iff (fun _ => .ok 7) "mtr -rw host".data demoCtx none).2
    "mtr -rw host".data 7 (pyFormat_no_brace _ _ (by decide)) rfl rfl

/-! ### Claim C8: build_env -/

theorem dictGet_dictSet_self {β : Type} (d : List (Str × β)) (k : Str) (v : β) :
    dictGet (dictSet d k v) k = some v := by
  induction d with
  | nil => simp [dictSet, dictGet]
  | cons p rest ih =>
    obtain ⟨k2, v2⟩ := p
    by_cases hk : k2 = k
    · simp [dictSet, hk, dictGet]
    · simp [dictSet, hk, dictGet, ih]

theorem dictGet_dictSet_ne {β : Type} (d : List (Str × β)) (k e : Str) (v : β)
    (h : e ≠ k) : dictGet (dictSet d k v) e = dictGet d e := by
  induction d with
  | nil =>
    simp only [dictSet, dictGet]
    rw [if_neg (fun hh => h hh.symm)]
  | cons p rest ih =>
    obtain ⟨k2, v2⟩ := p
    by_cases hk : k2 = k
    · subst hk
      simp only [dictSet, if_pos rfl, dictGet]
      rw [if_neg (fun hh => h hh.symm), if_neg (fun hh => h hh.symm)]
    · simp [dictSet, hk, dictGet, ih]

/-- C8: `build_env` returns the inherited environment with PATH rewritten to
`<prefix>/bin`, the path-list separator `:`, then the original PATH value (the
empty string when PATH was unset), and no other variable changed.  The model
is a pure function of the inherited environment, which is itself untouched. -/
theorem C8_build_env (osEnv : List (Str × Str)) (ctx : Ctx) :
    dictGet (build_env osEnv ctx) "PATH".data
      = some ((ctx.pfx ++ "/bin".data) ++ ':' :: ((dictGet osEnv "PATH".data).getD []))
    ∧ (∀ k, k ≠ "PATH".data → dictGet (build_env osEnv ctx) k = dictGet osEnv k) := by
  unfold build_env
  exact ⟨dictGet_dictSet_self _ _ _, fun k hk => dictGet_dictSet_ne _ _ _ _ hk⟩

/-- A demonstration process environment. -/
def demoEnv : List (Str × Str) :=
  [("PATH".data, "/usr/bin".data), ("HOME".data, "/home/user".data)]

/-- C8 witness: `C8_build_env` on a concrete environment — PATH is rewritten,
HOME is untouched. -/
theorem C8_build_env_witness :
    dictGet (build_env demoEnv demoCtx) "PATH".data
      = some ((demoCtx.pfx ++ "/bin".data) ++ ':'
          :: ((dictGet demoEnv "PATH".data).getD []))
    ∧ dictGet (build_env demoEnv demoCtx) "HOME".data = dictGet demoEnv "HOME".data :=
  ⟨(C8_build_env demoEnv demoCtx).1,
   (C8_build_env demoEnv demoCtx).2 "HOME".data (by decide)⟩

/-! ### Claim C7: path_doctor -/

theorem count_dedupFirst (e : Str) : ∀ (l : List Str) (seen : List Str),
    (dedupFirst seen l).count e = if e ∈ l ∧ e ∉ seen then 1 else 0 := by
  intro l
  induction l with
  | nil =>
    intro seen
    simp [dedupFirst]
  | cons x xs ih =>
    intro seen
    simp only [dedupFirst]
    by_cases hx : seen.contains x
    · rw [if_pos hx, ih seen]
      have hxseen : x ∈ seen := by simpa using hx
      by_cases hex : e = x
      · subst hex
        simp [hxseen]
      · simp [List.mem_cons, hex]
    · rw [if_neg hx, List.count_cons, ih (x :: seen)]
      have hxseen : x ∉ seen := by simpa using hx
      by_cases hex : e = x
      · subst hex
        simp [hxseen]
      · simp only [List.mem_cons, hex, false_or, beq_iff_eq, Ne.symm hex, if_false]
        simp

theorem count_secondOccurrences (e : Str) : ∀ (l prev : List Str),
    (secondOccurrences prev l).count e
      = if 2 ≤ prev.count e then 0
        else if 2 ≤ prev.count e + l.count e then 1 else 0 := by
  intro l
  induction l with
  | nil =>
    intro prev
    simp only [secondOccurrences, List.count_nil]
    split_ifs <;> omega
  | cons a rest ih =>
    intro prev
    have hrec : (secondOccurrences prev (a :: rest)).count e
        = (if prev.count a = 1 then [a] else []).count e
          + (secondOccurrences (prev ++ [a]) rest).count e := by
      rw [show secondOccurrences prev (a :: rest)
          = (if prev.count a = 1 then [a] else [])
            ++ secondOccurrences (prev ++ [a]) rest from rfl, List.count_append]
    rw [hrec, ih (prev ++ [a])]
    have hca : (prev ++ [a]).count e = prev.count e + (if a = e then 1 else 0) := by
      rw [List.count_append]
      by_cases hae : a = e
      · subst hae
        simp
      · simp [List.count_cons, hae]
    have hcl : (a :: rest).count e = rest.count e + (if a = e then 1 else 0) := by
      rw [List.count_cons]
      by_cases hae : a = e <;> simp [hae]
    have hemit : (if prev.count a = 1 then [a] else []).count e
        = if prev.count a = 1 ∧ a = e then 1 else 0 := by
      by_cases h1 : prev.count a = 1
      · rw [if_pos h1]
        by_cases hae : a = e
        · subst hae
          simp [h1]
        · simp [List.count_cons, hae, h1]
      · rw [if_neg h1]
        simp [h1]
    rw [hemit, hca, hcl]
    by_cases hae : a = e
    · subst hae
      simp only [and_true]
      split_ifs <;> omega
    · simp only [hae, and_false, if_false]
      split_ifs <;> omega

theorem pdGo_spec (normalize : Str → Str) (isDir : Str → Bool) :
    ∀ (entries : List Str) (seen : List (Str × Nat)) (dups miss prev : List Str),
      (∀ e, (dictGet seen e).getD 0 = prev.count e) →
      pdGo normalize isDir entries seen dups miss
        = (dups ++ secondOccurrences prev (entries.map normalize),
           miss ++ missingRaw isDir (entries.map normalize)) := by
  intro entries
  induction entries with
  | nil =>
    intro seen dups miss prev hseen
    simp [pdGo, secondOccurrences, missingRaw]
  | cons entry rest ih =>
    intro seen dups miss prev hseen
    simp only [pdGo, List.map_cons]
    rw [ih _ _ _ (prev ++ [normalize entry]) ?hinv]
    case hinv =>
      intro e
      by_cases he : e = normalize entry
      · subst he
        rw [dictGet_dictSet_self, List.count_append]
        simp [hseen (normalize entry)]
      · rw [dictGet_dictSet_ne _ _ _ _ he, List.count_append]
        have hz : List.count e [normalize entry] = 0 := by
          simp [List.count_cons, he]
        rw [hz, hseen e]
        simp
    have hcnt : (dictGet seen (normalize entry)).getD 0 = prev.count (normalize entry) :=
      hseen (normalize entry)
    rw [show secondOccurrences prev (normalize entry :: rest.map normalize)
        = (if prev.count (normalize entry) = 1 then [normalize entry] else [])
          ++ secondOccurrences (prev ++ [normalize entry]) (rest.map normalize)
      from rfl]
    rw [show missingRaw isDir (normalize entry :: rest.map normalize)
        = (if !(isDir (normalize entry)) then [normalize entry] else [])
          ++ missingRaw isDir (rest.map normalize) from by
        unfold missingRaw
        rw [List.filter_cons]
        by_cases hd : !(isDir (normalize entry)) <;> simp [hd]]
    rw [hcnt]
    congr 1
    · by_cases h1 : prev.count (normalize entry) = 1
      · rw [if_pos h1, if_pos (by omega)]
        simp
      · rw [if_neg h1, if_neg (by omega)]
        simp
    · by_cases hd : isDir (normalize entry) = true <;> simp [hd]

theorem path_doctor_spec (normalize : Str → Str) (isDir : Str → Bool) (path : Str) :
    path_doctor normalize isDir path
      = (secondOccurrences [] ((pathEntries path).map normalize),
         dedupFirst [] (missingRaw isDir ((pathEntries path).map normalize))) := by
  unfold path_doctor
  rw [pdGo_spec normalize isDir (pathEntries path) [] [] [] []
    (fun e => by simp [dictGet])]
  simp

/-- C7: `path_doctor` splits PATH on `:` discarding empty segments, normalizes
each entry through the expansion oracle, emits an entry into the duplicates
list exactly on its second occurrence (so each duplicated entry appears there
exactly once, third and later occurrences are not re-added), and reports the
non-directory entries deduplicated in first-occurrence order; on
`PATH="/x:/y:/x:/z"` with only `/x` existing this yields `(["/x"], ["/y",
"/z"])`.  The model is a pure function: PATH is only read. -/
theorem C7_path_doctor (normalize : Str → Str) (isDir : Str → Bool) (path : Str) :
    path_doctor normalize isDir path
      = (secondOccurrences [] ((pathEntries path).map normalize),
         dedupFirst [] (missingRaw isDir ((pathEntries path).map normalize)))
    ∧ (∀ e, (path_doctor normalize isDir path).1.count e
        = if 2 ≤ ((pathEntries path).map normalize).count e then 1 else 0)
    ∧ (∀ e, (path_doctor normalize isDir path).2.count e
        = if e ∈ missingRaw isDir ((pathEntries path).map normalize) then 1 else 0)
    ∧ path_doctor (fun e => e) (fun e => e == "/x".data) "/x:/y:/x:/z".data
        = (["/x".data], ["/y".data, "/z".data]) := by
  refine ⟨path_doctor_spec normalize isDir path, ?_, ?_, by decide⟩
  · intro e
    rw [path_doctor_spec normalize isDir path]
    show (secondOccurrences [] _).count e = _
    rw [count_secondOccurrences]
    simp
  · intro e
    rw [path_doctor_spec normalize isDir path]
    show (dedupFirst [] _).count e = _
    rw [count_dedupFirst]
    simp

end HelpBox
